import Mathlib

/-!
Verification of the OCR key-bundle subsystem
(`core/store/models/ocrkey/private_key.go`).

The Go source is shallowly embedded: pure functions become Lean
functions, machine bytes become `Nat` values bounded by 256, big
integers (`math/big.Int`, nonnegative throughout this file's scope)
become `Nat`, and fallible operations return `Option`/`Except`.
Randomness consumed from `crypto/rand` is made explicit: each
generation function takes the drawn entropy as an argument.

External library primitives used by the source (Go's `crypto/sha256`,
`encoding/hex`, `encoding/json` on the fixed struct shapes appearing
here, `encoding/base64` inside `encoding/json`, go-ethereum's
`keystore` and `secp256k1`, and `golang.org/x/crypto/curve25519`) are
embedded at the level of their documented behaviour; each such
definition carries a comment naming the primitive it models.
-/

namespace Ocrkey

/-! ## Bytes and hex -/

/-- A byte sequence: each entry is a machine byte, i.e. `< 256`. -/
def BytesOK (l : List Nat) : Prop := ∀ b ∈ l, b < 256

instance : DecidablePred BytesOK := fun l =>
  inferInstanceAs (Decidable (∀ b ∈ l, b < 256))

/-- Lowercase hex digit for a value `< 16` (models Go's
`encoding/hex` alphabet `0123456789abcdef`). -/
def hexDigit (n : Nat) : Char :=
  if n < 10 then Char.ofNat (48 + n) else Char.ofNat (87 + n)

/-- Models `encoding/hex.EncodeToString`: two lowercase hex digits per
byte, high nibble first. -/
def hexEncodeChars (l : List Nat) : List Char :=
  l.flatMap (fun b => [hexDigit (b / 16), hexDigit (b % 16)])

/-- `hex.EncodeToString` as a Lean `String`. -/
def hexEncodeToString (l : List Nat) : String :=
  String.mk (hexEncodeChars l)

theorem hexEncodeChars_length (l : List Nat) :
    (hexEncodeChars l).length = 2 * l.length := by
  induction l with
  | nil => rfl
  | cons b t ih =>
      simp [hexEncodeChars, List.flatMap_cons] at ih ⊢
      omega

/-- The characters emitted by `hexDigit` for a nibble. -/
def isLowerHexChar (c : Char) : Bool :=
  (48 ≤ c.toNat && c.toNat ≤ 57) || (97 ≤ c.toNat && c.toNat ≤ 102)

theorem isLowerHexChar_hexDigit (n : Nat) (h : n < 16) :
    isLowerHexChar (hexDigit n) = true := by
  interval_cases n <;> decide

theorem hexEncodeChars_all_hex (l : List Nat) (hl : BytesOK l) :
    ∀ c ∈ hexEncodeChars l, isLowerHexChar c = true := by
  intro c hc
  simp only [hexEncodeChars, List.mem_flatMap] at hc
  obtain ⟨b, hb, hc⟩ := hc
  have hb' : b < 256 := hl b hb
  simp only [List.mem_cons, List.not_mem_nil, or_false] at hc
  rcases hc with h | h <;> subst h
  · exact isLowerHexChar_hexDigit _ (by omega)
  · exact isLowerHexChar_hexDigit _ (Nat.mod_lt _ (by omega))

/-! ## SHA-256 (models Go's `crypto/sha256.Sum256`) -/

/-- Truncation to a 32-bit word. -/
def w32 (n : Nat) : Nat := n % 4294967296

/-- 32-bit right rotation. -/
def rotr (k x : Nat) : Nat := w32 (x / 2 ^ k + x * 2 ^ (32 - k))

/-- 32-bit right shift. -/
def shr (k x : Nat) : Nat := x / 2 ^ k

/-- Bitwise XOR. -/
def bxor (a b : Nat) : Nat := Nat.xor a b

/-- Bitwise AND. -/
def band (a b : Nat) : Nat := Nat.land a b

/-- Bitwise complement within 32 bits. -/
def bnot32 (a : Nat) : Nat := 4294967295 - a % 4294967296

def sigma0 (x : Nat) : Nat := bxor (rotr 7 x) (bxor (rotr 18 x) (shr 3 x))
def sigma1 (x : Nat) : Nat := bxor (rotr 17 x) (bxor (rotr 19 x) (shr 10 x))
def bigSigma0 (x : Nat) : Nat := bxor (rotr 2 x) (bxor (rotr 13 x) (rotr 22 x))
def bigSigma1 (x : Nat) : Nat := bxor (rotr 6 x) (bxor (rotr 11 x) (rotr 25 x))
def chFn (x y z : Nat) : Nat := bxor (band x y) (band (bnot32 x) z)
def majFn (x y z : Nat) : Nat :=
  bxor (band x y) (bxor (band x z) (band y z))

/-- The 64 SHA-256 round constants (FIPS 180-4, written in decimal). -/
def sha256K : List Nat :=
  [1116352408, 1899447441, 3049323471, 3921009573,
   961987163, 1508970993, 2453635748, 2870763221,
   3624381080, 310598401, 607225278, 1426881987,
   1925078388, 2162078206, 2614888103, 3248222580,
   3835390401, 4022224774, 264347078, 604807628,
   770255983, 1249150122, 1555081692, 1996064986,
   2554220882, 2821834349, 2952996808, 3210313671,
   3336571891, 3584528711, 113926993, 338241895,
   666307205, 773529912, 1294757372, 1396182291,
   1695183700, 1986661051, 2177026350, 2456956037,
   2730485921, 2820302411, 3259730800, 3345764771,
   3516065817, 3600352804, 4094571909, 275423344,
   430227734, 506948616, 659060556, 883997877,
   958139571, 1322822218, 1537002063, 1747873779,
   1955562222, 2024104815, 2227730452, 2361852424,
   2428436474, 2756734187, 3204031479, 3329325298]

/-- Initial SHA-256 hash state (FIPS 180-4, in decimal). -/
def sha256H0 : List Nat :=
  [1779033703, 3144134277, 1013904242, 2773480762,
   1359893119, 2600822924, 528734635, 1541459225]

/-- Big-endian 32-bit word from four bytes. -/
def wordOfBytes : List Nat → Nat
  | a :: b :: c :: d :: _ => ((a * 256 + b) * 256 + c) * 256 + d
  | _ => 0

/-- Split a 64-byte block into sixteen big-endian words. -/
def blockWords (l : List Nat) : Nat → List Nat
  | 0 => []
  | n + 1 => wordOfBytes l :: blockWords (l.drop 4) n

/-- Extend sixteen words into the 64-entry message schedule.
`w` is the reversed list of words computed so far. -/
def extendSchedule (w : List Nat) : Nat → List Nat
  | 0 => w.reverse
  | n + 1 =>
      let nw := w32 (sigma1 (w.getD 1 0) + w.getD 6 0 +
        sigma0 (w.getD 14 0) + w.getD 15 0)
      extendSchedule (nw :: w) n

/-- One SHA-256 round on state `[a,b,c,d,e,f,g,h]` with constant `k`
and schedule word `wv`. -/
def sha256Round (st : List Nat) (kw : Nat × Nat) : List Nat :=
  match st with
  | [a, b, c, d, e, f, g, h] =>
      let t1 := w32 (h + bigSigma1 e + chFn e f g + kw.1 + kw.2)
      let t2 := w32 (bigSigma0 a + majFn a b c)
      [w32 (t1 + t2), a, b, c, w32 (d + t1), e, f, g]
  | other => other

/-- Compress one 64-byte block into the running hash state. -/
def sha256Compress (h : List Nat) (block : List Nat) : List Nat :=
  let w := extendSchedule (blockWords block 16).reverse 48
  let st := (sha256K.zip w).foldl sha256Round h
  (h.zip st).map (fun p => w32 (p.1 + p.2))

/-- SHA-256 padding: append `0x80`, zeros, then the 64-bit big-endian
bit length. -/
def sha256Pad (msg : List Nat) : List Nat :=
  let l := msg.length
  let zeros := (64 + 56 - (l + 1) % 64) % 64
  let bits := l * 8
  msg ++ 128 :: List.replicate zeros 0 ++
    [w32 (bits / 2 ^ 56) % 256, bits / 2 ^ 48 % 256, bits / 2 ^ 40 % 256,
     bits / 2 ^ 32 % 256, bits / 2 ^ 24 % 256, bits / 2 ^ 16 % 256,
     bits / 2 ^ 8 % 256, bits % 256]

/-- Fold the compression function over consecutive 64-byte blocks. -/
def sha256Blocks (h : List Nat) (l : List Nat) : List Nat :=
  if l = [] then h
  else sha256Blocks (sha256Compress h (l.take 64)) (l.drop 64)
termination_by l.length
decreasing_by
  rename_i hne
  have : l.length ≠ 0 := fun h0 => hne (List.eq_nil_of_length_eq_zero h0)
  simp [List.length_drop]
  omega

/-- Serialize the eight-word state to 32 big-endian bytes. -/
def wordsToBytes (l : List Nat) : List Nat :=
  l.flatMap (fun x =>
    [x / 2 ^ 24 % 256, x / 2 ^ 16 % 256, x / 2 ^ 8 % 256, x % 256])

/-- Models Go's `crypto/sha256.Sum256`. -/
def sha256Sum256 (msg : List Nat) : List Nat :=
  wordsToBytes (sha256Blocks sha256H0 (sha256Pad msg))

theorem sha256Round_length (st : List Nat) (kw : Nat × Nat)
    (hst : st.length = 8) : (sha256Round st kw).length = 8 := by
  match st, hst with
  | [a, b, c, d, e, f, g, h], _ => rfl

theorem sha256Compress_length (h : List Nat) (block : List Nat)
    (hh : h.length = 8) : (sha256Compress h block).length = 8 := by
  have hfold : ∀ (ps : List (Nat × Nat)) (st : List Nat), st.length = 8 →
      (ps.foldl sha256Round st).length = 8 := by
    intro ps
    induction ps with
    | nil => intro st hst; simpa
    | cons p t ih2 => intro st hst; exact ih2 _ (sha256Round_length st p hst)
  simp only [sha256Compress]
  rw [List.length_map, List.length_zip]
  rw [hfold _ _ hh, hh]
  simp

theorem sha256Blocks_length (h l : List Nat)
    (hh : h.length = 8) : (sha256Blocks h l).length = 8 := by
  have main : ∀ n (l h : List Nat), l.length ≤ n → h.length = 8 →
      (sha256Blocks h l).length = 8 := by
    intro n
    induction n with
    | zero =>
        intro l h hl hh
        have : l = [] := by
          cases l with
          | nil => rfl
          | cons a t => simp at hl
        rw [sha256Blocks]
        simp [this, hh]
    | succ m ih =>
        intro l h hl hh
        rw [sha256Blocks]
        split
        · simpa
        · rename_i hne
          apply ih
          · have : l.length ≠ 0 := fun h0 => hne (List.eq_nil_of_length_eq_zero h0)
            simp only [List.length_drop]
            omega
          · exact sha256Compress_length _ _ hh
  exact main l.length l h le_rfl hh

theorem sha256Sum256_length (msg : List Nat) :
    (sha256Sum256 msg).length = 32 := by
  have h8 : (sha256Blocks sha256H0 (sha256Pad msg)).length = 8 :=
    sha256Blocks_length _ _ rfl
  simp only [sha256Sum256, wordsToBytes]
  rw [List.length_flatMap]
  simp [Function.comp_def, List.map_const', List.sum_replicate, h8]

theorem sha256Sum256_bytes (msg : List Nat) : BytesOK (sha256Sum256 msg) := by
  intro b hb
  simp only [sha256Sum256, wordsToBytes, List.mem_flatMap] at hb
  obtain ⟨x, _, hb⟩ := hb
  simp only [List.mem_cons, List.not_mem_nil, or_false] at hb
  rcases hb with h | h | h | h <;> subst h <;>
    exact Nat.mod_lt _ (by omega)

/-! ## Decimal numerals
(models the output of `math/big.Int.MarshalJSON`, which emits the
decimal text of the integer — nonnegative throughout this file — and
of `encoding/json` for `uint8` values) -/

/-- ASCII decimal numeral of `n`, most significant digit first. -/
def decBytes (n : Nat) : List Nat :=
  if n = 0 then [48] else (Nat.digits 10 n).reverse.map (· + 48)

def isDigitByte (b : Nat) : Bool := 48 ≤ b && b ≤ 57

/-- Numeric value of a digit-byte list, most significant first. -/
def decValue (l : List Nat) : Nat := l.foldl (fun a b => 10 * a + (b - 48)) 0

/-- Maximal-munch decimal parse: reads the longest digit run. -/
def parseDec (l : List Nat) : Option (Nat × List Nat) :=
  let ds := l.takeWhile isDigitByte
  if ds = [] then none else some (decValue ds, l.dropWhile isDigitByte)

theorem decBytes_digits (n : Nat) : ∀ b ∈ decBytes n, isDigitByte b = true := by
  intro b hb
  simp only [decBytes] at hb
  split at hb
  · simp only [List.mem_singleton] at hb
    subst hb; decide
  · simp only [List.mem_map, List.mem_reverse] at hb
    obtain ⟨d, hd, rfl⟩ := hb
    have : d < 10 := Nat.digits_lt_base (by omega) hd
    simp [isDigitByte]
    omega

theorem decBytes_ne_nil (n : Nat) : decBytes n ≠ [] := by
  simp only [decBytes]
  split
  · simp
  · rename_i h
    simp only [ne_eq, List.map_eq_nil_iff, List.reverse_eq_nil_iff]
    exact Nat.digits_ne_nil_iff_ne_zero.mpr h

theorem foldl_dec_eq (l : List Nat) (a : Nat) :
    l.reverse.foldl (fun a d => 10 * a + d) a =
      a * 10 ^ l.length + Nat.ofDigits 10 l := by
  induction l generalizing a with
  | nil => simp
  | cons d t ih =>
      rw [List.reverse_cons, List.foldl_append]
      simp only [List.foldl_cons, List.foldl_nil, Nat.ofDigits_cons,
        List.length_cons]
      rw [ih]
      ring

theorem decValue_decBytes (n : Nat) : decValue (decBytes n) = n := by
  simp only [decValue, decBytes]
  split
  · simp_all
  · rw [List.foldl_map]
    have heq : (fun (a b : Nat) => 10 * a + (b + 48 - 48)) =
        (fun (a d : Nat) => 10 * a + d) := by
      funext a b; omega
    simp only [heq]
    rw [foldl_dec_eq]
    simp [Nat.ofDigits_digits]

theorem takeWhile_append_all {p : Nat → Bool} (xs ys : List Nat)
    (hxs : ∀ x ∈ xs, p x = true)
    (hys : ∀ y, ys.head? = some y → p y = false) :
    (xs ++ ys).takeWhile p = xs ∧ (xs ++ ys).dropWhile p = ys := by
  induction xs with
  | nil =>
      simp only [List.nil_append]
      cases ys with
      | nil => simp
      | cons y t =>
          have hw := hys y rfl
          constructor
          · simp [List.takeWhile_cons, hw]
          · simp [List.dropWhile_cons, hw]
  | cons x xs ih =>
      have hx : p x = true := hxs x (by simp)
      have ⟨h1, h2⟩ := ih (fun a ha => hxs a (by simp [ha]))
      simp only [List.cons_append, List.takeWhile_cons, List.dropWhile_cons, hx]
      exact ⟨by simp [h1], by simp [h2]⟩

theorem parseDec_roundtrip (n : Nat) (rest : List Nat)
    (hrest : ∀ y, rest.head? = some y → isDigitByte y = false) :
    parseDec (decBytes n ++ rest) = some (n, rest) := by
  have ⟨h1, h2⟩ := takeWhile_append_all (decBytes n) rest (decBytes_digits n) hrest
  simp only [parseDec, h1, h2]
  rw [if_neg (decBytes_ne_nil n), decValue_decBytes]

/-! ## Base64 (standard alphabet, with padding)
Models the encoding `encoding/json` applies to `[]byte` struct fields
(`encoding/base64.StdEncoding`). -/

/-- ASCII code of the standard base64 character for a sextet `< 64`. -/
def b64char (v : Nat) : Nat :=
  if v < 26 then 65 + v
  else if v < 52 then 97 + (v - 26)
  else if v < 62 then 48 + (v - 52)
  else if v = 62 then 43 else 47

/-- Sextet value of a standard base64 ASCII character. -/
def b64val (c : Nat) : Option Nat :=
  if 65 ≤ c ∧ c ≤ 90 then some (c - 65)
  else if 97 ≤ c ∧ c ≤ 122 then some (c - 97 + 26)
  else if 48 ≤ c ∧ c ≤ 57 then some (c - 48 + 52)
  else if c = 43 then some 62
  else if c = 47 then some 63
  else none

/-- Standard base64 encoding of a byte list, with `=` (61) padding. -/
def base64Encode : List Nat → List Nat
  | [] => []
  | [a] => [b64char (a / 4), b64char (a % 4 * 16), 61, 61]
  | [a, b] =>
      [b64char (a / 4), b64char (a % 4 * 16 + b / 16), b64char (b % 16 * 4), 61]
  | a :: b :: c :: rest =>
      b64char (a / 4) :: b64char (a % 4 * 16 + b / 16) ::
        b64char (b % 16 * 4 + c / 64) :: b64char (c % 64) :: base64Encode rest

/-- Standard base64 decoding, the inverse of `base64Encode`. -/
def base64Decode : List Nat → Option (List Nat)
  | [] => some []
  | w :: x :: y :: z :: rest => do
      let a ← b64val w
      let b ← b64val x
      if y = 61 ∧ z = 61 ∧ rest = [] then
        pure [a * 4 + b / 16]
      else do
        let c ← b64val y
        if z = 61 ∧ rest = [] then
          pure [a * 4 + b / 16, b % 16 * 16 + c / 4]
        else do
          let d ← b64val z
          let tail ← base64Decode rest
          pure ((a * 4 + b / 16) :: (b % 16 * 16 + c / 4) :: (c % 4 * 64 + d) :: tail)
  | _ => none

theorem b64val_b64char : ∀ v, v < 64 → b64val (b64char v) = some v := by
  decide

theorem b64char_ne_61 : ∀ v, v < 64 → b64char v ≠ 61 := by
  decide

theorem base64Decode_base64Encode (l : List Nat) (hl : BytesOK l) :
    base64Decode (base64Encode l) = some l := by
  induction l using base64Encode.induct with
  | case1 => rfl
  | case2 a =>
      have ha : a < 256 := hl a (by simp)
      have h1 : a / 4 < 64 := by omega
      have h2 : a % 4 * 16 < 64 := by omega
      simp only [base64Encode, base64Decode, b64val_b64char _ h1,
        b64val_b64char _ h2, Option.bind_eq_bind, Option.some_bind]
      simp only [and_self, if_true, true_and, if_pos rfl, Option.pure_def,
        Option.some.injEq, List.cons.injEq, and_true]
      omega
  | case3 a b =>
      have ha : a < 256 := hl a (by simp)
      have hb : b < 256 := hl b (by simp)
      have h1 : a / 4 < 64 := by omega
      have h2 : a % 4 * 16 + b / 16 < 64 := by omega
      have h3 : b % 16 * 4 < 64 := by omega
      simp only [base64Encode, base64Decode, b64val_b64char _ h1,
        b64val_b64char _ h2, b64val_b64char _ h3, Option.bind_eq_bind,
        Option.some_bind]
      rw [if_neg (by exact fun hc => b64char_ne_61 _ h3 hc.1)]
      simp only [and_self, if_true, true_and, if_pos rfl, Option.pure_def,
        Option.some.injEq, List.cons.injEq, and_true]
      omega
  | case4 a b c rest ih =>
      have ha : a < 256 := hl a (by simp)
      have hb : b < 256 := hl b (by simp)
      have hc : c < 256 := hl c (by simp)
      have hrest : BytesOK rest := fun x hx => hl x (by simp [hx])
      have h1 : a / 4 < 64 := by omega
      have h2 : a % 4 * 16 + b / 16 < 64 := by omega
      have h3 : b % 16 * 4 + c / 64 < 64 := by omega
      have h4 : c % 64 < 64 := by omega
      simp only [base64Encode, base64Decode, b64val_b64char _ h1,
        b64val_b64char _ h2, b64val_b64char _ h3, b64val_b64char _ h4,
        Option.bind_eq_bind, Option.some_bind]
      rw [if_neg (by exact fun hq => b64char_ne_61 _ h3 hq.1)]
      rw [if_neg (by exact fun hq => b64char_ne_61 _ h4 hq.1)]
      rw [ih hrest]
      simp only [Option.some_bind, Option.pure_def, Option.some.injEq,
        List.cons.injEq, and_true]
      omega

/-- No byte of a base64 encoding is the double-quote byte 34, so a
quoted base64 string is delimited correctly. -/
theorem base64Encode_ne_34 (l : List Nat) : ∀ b ∈ base64Encode l, b ≠ 34 := by
  have hch : ∀ v, b64char v ≠ 34 := by
    intro v
    by_cases h : v < 64
    · revert h v
      decide
    · simp only [b64char]
      split <;> [omega; skip]
      split <;> [omega; skip]
      split <;> [omega; skip]
      split <;> omega
  induction l using base64Encode.induct with
  | case1 => simp [base64Encode]
  | case2 a =>
      simp only [base64Encode, List.mem_cons, List.not_mem_nil, or_false]
      rintro b (rfl | rfl | rfl | rfl) <;> first | exact hch _ | decide
  | case3 a b =>
      simp only [base64Encode, List.mem_cons, List.not_mem_nil, or_false]
      rintro x (rfl | rfl | rfl | rfl) <;> first | exact hch _ | decide
  | case4 a b c rest ih =>
      simp only [base64Encode, List.mem_cons]
      rintro x (rfl | rfl | rfl | rfl | hx)
      · exact hch _
      · exact hch _
      · exact hch _
      · exact hch _
      · exact ih _ hx

/-! ## The canonical raw key struct and its JSON codec

Embeds `ocrPrivateKeyRawData` and the behaviour of Go's
`encoding/json` on it: field order is declaration order, `big.Int`
fields marshal as decimal JSON numbers, `[]byte` as a base64 string,
`[32]byte` as an array of numbers. -/

/-- Embeds the Go struct `ocrPrivateKeyRawData`. `big.Int` values are
nonnegative here and embedded as `Nat`. -/
structure ocrPrivateKeyRawData where
  EcdsaX : Nat
  EcdsaY : Nat
  EcdsaD : Nat
  Ed25519PrivKey : List Nat
  OffChainEncryption : List Nat
deriving DecidableEq, Repr

/-- UTF-8 bytes of an ASCII string literal. -/
def strBytes (s : String) : List Nat := s.toList.map Char.toNat

/-- `{"EcdsaX":` -/
def jsonPatX : List Nat := 123 :: strBytes "\"EcdsaX\":"
/-- `,"EcdsaY":` -/
def jsonPatY : List Nat := 44 :: strBytes "\"EcdsaY\":"
/-- `,"EcdsaD":` -/
def jsonPatD : List Nat := 44 :: strBytes "\"EcdsaD\":"
/-- `,"Ed25519PrivKey":"` -/
def jsonPatEd : List Nat := 44 :: strBytes "\"Ed25519PrivKey\":\""
/-- `,"OffChainEncryption":[` -/
def jsonPatOc : List Nat := 44 :: strBytes "\"OffChainEncryption\":["

/-- Body of a JSON array of decimal numbers: entries separated by `,`,
closed by `]` (the opening `[` sits in `jsonPatOc`). -/
def decListBody : List Nat → List Nat
  | [] => [93]
  | [n] => decBytes n ++ [93]
  | n :: t => decBytes n ++ 44 :: decListBody t

/-- Models `encoding/json.Marshal` on `ocrPrivateKeyRawData` (emitted
by `MarshalJSON` of the bundle): the exact byte sequence Go produces. -/
def ocrKeyJSON (r : ocrPrivateKeyRawData) : List Nat :=
  jsonPatX ++ (decBytes r.EcdsaX ++ (jsonPatY ++ (decBytes r.EcdsaY ++
    (jsonPatD ++ (decBytes r.EcdsaD ++ (jsonPatEd ++
    (base64Encode r.Ed25519PrivKey ++ (34 :: (jsonPatOc ++
    (decListBody r.OffChainEncryption ++ [125]))))))))))

/-- Strip an exact expected byte pattern from the input. -/
def expectBytes : List Nat → List Nat → Option (List Nat)
  | [], l => some l
  | p :: ps, x :: xs => if x = p then expectBytes ps xs else none
  | _ :: _, [] => none

/-- Parse a string field: bytes up to the closing quote 34. -/
def parseQuoted (l : List Nat) : Option (List Nat × List Nat) :=
  let s := l.takeWhile (fun b => b != 34)
  match l.dropWhile (fun b => b != 34) with
  | 34 :: rest => some (s, rest)
  | _ => none

/-- Parse comma-separated decimals up to and including the closing
`]`. The first argument is recursion fuel. -/
def parseDecList : Nat → List Nat → Option (List Nat × List Nat)
  | 0, _ => none
  | fuel + 1, l => do
      let (n, r) ← parseDec l
      match r with
      | 44 :: r2 => do
          let (t, r3) ← parseDecList fuel r2
          pure (n :: t, r3)
      | 93 :: r2 => pure ([n], r2)
      | _ => none

/-- Models `encoding/json.Unmarshal` into `ocrPrivateKeyRawData`,
specialised to the canonical byte layout `ocrKeyJSON` emits (the only
layout produced by this package's `MarshalJSON`). -/
def parseOcrKeyJSON (b : List Nat) : Option ocrPrivateKeyRawData := do
  let b ← expectBytes jsonPatX b
  let (x, b) ← parseDec b
  let b ← expectBytes jsonPatY b
  let (y, b) ← parseDec b
  let b ← expectBytes jsonPatD b
  let (d, b) ← parseDec b
  let b ← expectBytes jsonPatEd b
  let (s, b) ← parseQuoted b
  let ed ← base64Decode s
  let b ← expectBytes jsonPatOc b
  let (oc, b) ← parseDecList b.length b
  let b ← expectBytes [125] b
  match b with
  | [] => pure (⟨x, y, d, ed, oc⟩ : ocrPrivateKeyRawData)
  | _ => none

theorem expectBytes_append (pat rest : List Nat) :
    expectBytes pat (pat ++ rest) = some rest := by
  induction pat with
  | nil => rfl
  | cons p ps ih => simp [expectBytes, ih]

theorem parseQuoted_append (s rest : List Nat) (hs : ∀ b ∈ s, b ≠ 34) :
    parseQuoted (s ++ 34 :: rest) = some (s, rest) := by
  have hp : ∀ b ∈ s, (fun (b : Nat) => b != 34) b = true := by
    intro b hb
    simpa using hs b hb
  have hh : ∀ y, (34 :: rest).head? = some y →
      (fun (b : Nat) => b != 34) y = false := by
    intro y hy
    simp only [List.head?_cons, Option.some.injEq] at hy
    subst hy
    decide
  have ⟨h1, h2⟩ := takeWhile_append_all s (34 :: rest) hp hh
  simp [parseQuoted, h1, h2]

theorem parseDecList_append (l : List Nat) :
    ∀ (rest : List Nat) (fuel : Nat), l ≠ [] → l.length ≤ fuel →
    parseDecList fuel (decListBody l ++ rest) = some (l, rest) := by
  induction l with
  | nil => intro rest fuel hne _; exact absurd rfl hne
  | cons n t ih =>
      intro rest fuel _ hfuel
      match fuel, hfuel with
      | fuel + 1, hf2 =>
          cases t with
          | nil =>
              have hdec : parseDec (decBytes n ++ 93 :: rest) =
                  some (n, 93 :: rest) := by
                apply parseDec_roundtrip
                intro y hy
                simp only [List.head?_cons, Option.some.injEq] at hy
                subst hy; decide
              simp only [decListBody, List.append_assoc, List.cons_append,
                List.nil_append]
              simp only [parseDecList, Option.bind_eq_bind, hdec, Option.some_bind]
              rfl
          | cons m t2 =>
              have hdec : parseDec
                  (decBytes n ++ 44 :: (decListBody (m :: t2) ++ rest)) =
                  some (n, 44 :: (decListBody (m :: t2) ++ rest)) := by
                apply parseDec_roundtrip
                intro y hy
                simp only [List.head?_cons, Option.some.injEq] at hy
                subst hy; decide
              have hlen : (m :: t2).length ≤ fuel := by
                simp only [List.length_cons] at hf2 ⊢
                omega
              have ihr := ih (44 :: rest) fuel (by simp) hlen
              show parseDecList (fuel + 1)
                (decListBody (n :: m :: t2) ++ rest) = _
              have hbody : decListBody (n :: m :: t2) ++ rest =
                  decBytes n ++ 44 :: (decListBody (m :: t2) ++ rest) := by
                show (decBytes n ++ 44 :: decListBody (m :: t2)) ++ rest = _
                simp [List.append_assoc]
              rw [hbody]
              simp only [parseDecList, Option.bind_eq_bind, hdec, Option.some_bind]
              rw [ih (rest) fuel (by simp) hlen]
              rfl
      | 0, hf =>
          simp at hf

theorem decListBody_length (l : List Nat) : l.length ≤ (decListBody l).length := by
  induction l with
  | nil => simp [decListBody]
  | cons n t ih =>
      cases t with
      | nil =>
          have := decBytes_ne_nil n
          have : 1 ≤ (decBytes n).length := by
            cases h : decBytes n with
            | nil => exact absurd h this
            | cons a b => simp
          simp only [decListBody, List.length_append, List.length_cons,
            List.length_nil]
          omega
      | cons m t2 =>
          have h1 : 1 ≤ (decBytes n).length := by
            cases h : decBytes n with
            | nil => exact absurd h (decBytes_ne_nil n)
            | cons a b => simp
          show (n :: m :: t2).length ≤
            (decBytes n ++ 44 :: decListBody (m :: t2)).length
          simp only [List.length_append, List.length_cons] at ih ⊢
          omega

/-- Round trip of the canonical JSON codec: parsing what
`MarshalJSON` emits restores every field of the raw key data. -/
theorem parseOcrKeyJSON_ocrKeyJSON (r : ocrPrivateKeyRawData)
    (hed : BytesOK r.Ed25519PrivKey) (hoc : r.OffChainEncryption ≠ []) :
    parseOcrKeyJSON (ocrKeyJSON r) = some r := by
  obtain ⟨x, y, d, ed, oc⟩ := r
  simp only at hed hoc
  have hndig44 : ∀ (L : List Nat) (z : Nat),
      ((44 :: L)).head? = some z → isDigitByte z = false := by
    intro L z hz
    simp only [List.head?_cons, Option.some.injEq] at hz
    subst hz; decide
  show parseOcrKeyJSON (ocrKeyJSON ⟨x, y, d, ed, oc⟩) = _
  rw [parseOcrKeyJSON, ocrKeyJSON]
  rw [expectBytes_append]
  simp only [Option.bind_eq_bind, Option.some_bind]
  rw [show (jsonPatY : List Nat) = 44 :: strBytes "\"EcdsaY\":" from rfl,
    List.cons_append]
  rw [parseDec_roundtrip x _ (hndig44 _)]
  simp only [Option.some_bind]
  rw [← List.cons_append,
    show (44 :: strBytes "\"EcdsaY\":" : List Nat) = jsonPatY from rfl]
  rw [expectBytes_append]
  simp only [Option.some_bind]
  rw [show (jsonPatD : List Nat) = 44 :: strBytes "\"EcdsaD\":" from rfl,
    List.cons_append]
  rw [parseDec_roundtrip y _ (hndig44 _)]
  simp only [Option.some_bind]
  rw [← List.cons_append,
    show (44 :: strBytes "\"EcdsaD\":" : List Nat) = jsonPatD from rfl]
  rw [expectBytes_append]
  simp only [Option.some_bind]
  rw [show (jsonPatEd : List Nat) = 44 :: strBytes "\"Ed25519PrivKey\":\"" from rfl,
    List.cons_append]
  rw [parseDec_roundtrip d _ (hndig44 _)]
  simp only [Option.some_bind]
  rw [← List.cons_append,
    show (44 :: strBytes "\"Ed25519PrivKey\":\"" : List Nat) = jsonPatEd from rfl]
  rw [expectBytes_append]
  simp only [Option.some_bind]
  rw [parseQuoted_append _ _ (base64Encode_ne_34 ed)]
  simp only [Option.some_bind]
  rw [base64Decode_base64Encode ed hed]
  simp only [Option.some_bind]
  rw [expectBytes_append]
  simp only [Option.some_bind]
  have hfuel : oc.length ≤ (decListBody oc ++ [125]).length := by
    have := decListBody_length oc
    simp only [List.length_append, List.length_cons, List.length_nil]
    omega
  rw [parseDecList_append oc [125] _ hoc hfuel]
  simp only [Option.some_bind]
  rw [show expectBytes [125] [125] = some [] from rfl]
  simp only [Option.some_bind]
  rfl

/-! ## secp256k1 (models go-ethereum's `secp256k1.S256()`)

Affine arithmetic over the base field; the point at infinity is
`none`, and `ScalarBaseMult`'s pair-of-big-ints result renders the
point at infinity as `(0, 0)`. -/

/-- The secp256k1 base field prime `2^256 - 2^32 - 977`. -/
def secpP : Nat :=
  115792089237316195423570985008687907853269984665640564039457584007908834671663

/-- The secp256k1 group order (`crypto.S256().Params().N`). -/
def secpN : Nat :=
  115792089237316195423570985008687907852837564279074904382605163141518161494337

/-- x-coordinate of the secp256k1 base point. -/
def secpGx : Nat :=
  55066263022277343669578718895168534326250603453777594175500187360389116729240

/-- y-coordinate of the secp256k1 base point. -/
def secpGy : Nat :=
  32670510020758816978083085130507043184471273380659243275938904335757337482424

/-- Binary modular exponentiation. -/
def powMod (b e m : Nat) : Nat :=
  if e = 0 then 1 % m
  else
    let h := powMod (b * b % m) (e / 2) m
    if e % 2 = 1 then h * b % m else h
termination_by e
decreasing_by
  rename_i he
  exact Nat.div_lt_self (Nat.pos_of_ne_zero he) (by omega)

/-- Inverse in the secp256k1 base field, via Fermat's little theorem. -/
def invModP (a : Nat) : Nat := powMod a (secpP - 2) secpP

/-- `a - b` in the base field. -/
def subModP (a b : Nat) : Nat := (a + (secpP - b % secpP)) % secpP

/-- Affine secp256k1 point addition; `none` is the point at infinity. -/
def ecAdd (P Q : Option (Nat × Nat)) : Option (Nat × Nat) :=
  match P, Q with
  | none, Q => Q
  | P, none => P
  | some (x1, y1), some (x2, y2) =>
      if x1 % secpP = x2 % secpP then
        if (y1 + y2) % secpP = 0 then none
        else
          let lam := 3 * x1 * x1 % secpP * invModP (2 * y1 % secpP) % secpP
          let x3 := subModP (lam * lam) (x1 + x2)
          some (x3, subModP (lam * subModP x1 x3) y1)
      else
        let lam := subModP y2 y1 * invModP (subModP x2 x1) % secpP
        let x3 := subModP (lam * lam) (x1 + x2)
        some (x3, subModP (lam * subModP x1 x3) y1)

/-- Double-and-add scalar multiplication. -/
def ecMul (k : Nat) (P : Option (Nat × Nat)) : Option (Nat × Nat) :=
  if k = 0 then none
  else
    let h := ecMul (k / 2) P
    let t := ecAdd h h
    if k % 2 = 1 then ecAdd t P else t
termination_by k
decreasing_by
  rename_i hk
  exact Nat.div_lt_self (Nat.pos_of_ne_zero hk) (by omega)

/-- Models `curve.ScalarBaseMult(k.Bytes())`: multiplication of the
secp256k1 base point by a scalar, as a pair of big integers (the
point at infinity comes out as `(0, 0)`). -/
def scalarBaseMult (k : Nat) : Nat × Nat :=
  (ecMul k (some (secpGx, secpGy))).getD (0, 0)

/-! ## curve25519 (models `golang.org/x/crypto/curve25519`)

The library is embedded at the level of its interface contract
(RFC 7748).  A point of the prime-order subgroup reached from the
base point is represented symbolically by the multiset of clamped
scalars that have been applied to the base point — scalar
multiplication of the same base point by the same set of scalars in
any order yields the same curve point, which is exactly the algebraic
law this representation encodes.  The known low-order/degenerate
peer encodings (for which the library's `X25519` returns its
all-zero-output error, since a clamped scalar annihilates the torsion
component) are a separate constructor; `lowOrder 0` stands for the
all-zero 32-byte encoding. -/

inductive X25519Point where
  | scaled (scalars : Multiset (List Nat))
  | lowOrder (idx : Nat)
deriving DecidableEq

/-- Models `curve25519.Basepoint` (the u = 9 generator). -/
def curve25519Basepoint : X25519Point := .scaled 0

/-- RFC 7748 scalar clamping of a 32-byte little-endian scalar:
clear the 3 low bits of byte 0, clear bit 7 and set bit 6 of
byte 31. -/
def clampBytes (k : List Nat) : List Nat :=
  k.mapIdx (fun i b =>
    if i = 0 then b / 8 * 8
    else if i = 31 then b % 64 + 64
    else b)

/-- Models `curve25519.X25519(k, u)`: multiply the point `u` by the
clamped scalar `k`; the library returns an error exactly when the
result is the all-zero output, i.e. when `u` is a low-order point. -/
def X25519fn (k : List Nat) (u : X25519Point) : Except String X25519Point :=
  match u with
  | .scaled s => .ok (.scaled (Multiset.cons (clampBytes k) s))
  | .lowOrder _ => .error "bad input point: low order point"

/-! ## The key bundle data model -/

/-- The curve identity carried by `ecdsa.PublicKey.Curve`; Go stores
either `secp256k1.S256()` or leaves the interface field nil
(embedded as `Option CurveName`). -/
inductive CurveName where
  | secp256k1
deriving DecidableEq

/-- Embeds `onChainPrivateKey` (an `ecdsa.PrivateKey` over
secp256k1): the public point `(X, Y)`, the private scalar `D`, and
the `Curve` field of the embedded `ecdsa.PublicKey`. -/
structure onChainPrivateKey where
  curve : Option CurveName
  X : Nat
  Y : Nat
  D : Nat
deriving DecidableEq

/-- Embeds `OCRPrivateKey`: the bundle of keys needed for OCR.
`offChainSigning` is the 64-byte `ed25519.PrivateKey`
(seed plus embedded public key), `offChainEncryption` the 32-byte
curve25519 exchange scalar. -/
structure OCRPrivateKey where
  ID : String
  onChainSigning : onChainPrivateKey
  offChainSigning : List Nat
  offChainEncryption : List Nat
deriving DecidableEq

/-- Models go-ethereum's `keystore.CryptoJSON` at the level of its
authenticated-encryption contract: scrypt-derive a key from the
password and a fresh salt, AES-CTR encrypt, MAC the ciphertext.
`kdfPassword` stands for the password the key was derived from,
`macValid` for the integrity of the stored ciphertext/MAC pair
(`false` models a corrupted or tampered container), and decryption
reveals `plaintext` only when both check out. -/
structure CryptoJSON where
  kdfPassword : String
  plaintext : List Nat
  macValid : Bool
deriving DecidableEq

/-- Embeds `EncryptedOCRPrivateKey`. `EncryptedPrivKeys` holds the
`keystore.CryptoJSON` container (the Go field stores its JSON bytes;
that serialization is a bijection and is elided).  The
`CreatedAt`/`UpdatedAt` DB bookkeeping fields are not modelled. -/
structure EncryptedOCRPrivateKey where
  ID : String
  OnChainSigningAddress : List Nat
  OffChainPublicKey : List Nat
  EncryptedPrivKeys : CryptoJSON
deriving DecidableEq

/-- Embeds `type scryptParams struct{ N, P int }`. -/
structure scryptParams where
  N : Nat
  P : Nat
deriving DecidableEq

/-- `keystore.StandardScryptN = 1 << 18`, `keystore.StandardScryptP = 1`. -/
def defaultScryptParams : scryptParams := ⟨262144, 1⟩

/-- Models `keystore.EncryptDataV3` under the `CryptoJSON` contract
model: record the derivation password and the plaintext with a valid
MAC.  (The salt, nonce and scrypt cost parameters do not affect any
property proved here; the cost parameters are accepted and ignored.) -/
def encryptDataV3 (data : List Nat) (auth : String) (_scryptN _scryptP : Nat) :
    CryptoJSON :=
  ⟨auth, data, true⟩

/-- Models `keystore.DecryptDataV3`: re-derive the key and check the
MAC; any authentication failure — wrong password or tampered
container — yields the library's single error value. -/
def decryptDataV3 (c : CryptoJSON) (auth : String) : Except String (List Nat) :=
  if c.macValid ∧ c.kdfPassword = auth then .ok c.plaintext
  else .error "could not decrypt key with given password"

/-! ## The embedded source functions of `private_key.go` -/

/-- Big-endian fixed-width byte string of a number. -/
def natToBytesBE (w n : Nat) : List Nat :=
  (List.range w).map (fun i => n / 256 ^ (w - 1 - i) % 256)

/-- Modelled from the spec: `Address()` of the on-chain keypair — the
repository file defining `onChainPrivateKey.Address` is not under
`src/`.  Per the spec it is "the fixed-length hash of the
uncompressed public point, last N bytes" (20 bytes here, matching the
fixed-length ethereum-style address); the spec does not name the hash
function, which is modelled with SHA-256. -/
def onChainAddress (k : onChainPrivateKey) : List Nat :=
  (sha256Sum256 (natToBytesBE 32 k.X ++ natToBytesBE 32 k.Y)).drop 12

/-- Modelled from the spec: `PublicKey()` of the off-chain keypair —
the repository file defining `offChainPrivateKey.PublicKey` is not
under `src/`.  Per the spec it returns the fixed-length verification
key; Go's `ed25519.PrivateKey` stores that public key in its last 32
bytes. -/
def ed25519PublicKey (priv : List Nat) : List Nat := priv.drop 32

/-- Embeds the struct construction inside `MarshalJSON`. -/
def rawOf (pk : OCRPrivateKey) : ocrPrivateKeyRawData :=
  ⟨pk.onChainSigning.X, pk.onChainSigning.Y, pk.onChainSigning.D,
    pk.offChainSigning, pk.offChainEncryption⟩

/-- Embeds `MarshalJSON`: serialize the raw key data (the canonical
byte payload used both for the bundle's ID and for encryption). -/
def MarshalJSON (pk : OCRPrivateKey) : List Nat := ocrKeyJSON (rawOf pk)

/-- Embeds `UnmarshalJSON`: parse the raw key data and rebuild the
bundle.  As in the source, the rebuilt `ecdsa.PublicKey` has no
`Curve` set and the `ID` field keeps its zero value. -/
def UnmarshalJSON (b : List Nat) : Option OCRPrivateKey :=
  match parseOcrKeyJSON b with
  | none => none
  | some raw =>
      some ⟨"", ⟨none, raw.EcdsaX, raw.EcdsaY, raw.EcdsaD⟩,
        raw.Ed25519PrivKey, raw.OffChainEncryption⟩

/-- Embeds `NewOCRPrivateKey`, with the consumed entropy explicit:
`onChainSk` is the value drawn by `cryptorand.Int(reader, N)` (a
uniform draw from `[0, N-1]`), `offChainPriv` the 64-byte ed25519
private key produced by `ed25519.GenerateKey`, and `encryptionPriv`
the 32 random bytes read into the curve25519 scalar. -/
def NewOCRPrivateKey (onChainSk : Nat) (offChainPriv encryptionPriv : List Nat) :
    OCRPrivateKey :=
  let xy := scalarBaseMult onChainSk
  let onChainPriv : onChainPrivateKey := ⟨some .secp256k1, xy.1, xy.2, onChainSk⟩
  let k : OCRPrivateKey := ⟨"", onChainPriv, offChainPriv, encryptionPriv⟩
  let marshalledPrivK := MarshalJSON k
  let byteID := sha256Sum256 marshalledPrivK
  { k with ID := hexEncodeToString byteID }

/-- Embeds `adulteratedPassword`: the "ocrkey" type tag is prepended
so the key cannot be mis-used elsewhere. -/
def adulteratedPassword (auth : String) : String := "ocrkey" ++ auth

/-- Embeds the lower-case `encrypt` (scrypt params taken as an
argument so tests can weaken them). -/
def OCRPrivateKey.encrypt (pk : OCRPrivateKey) (auth : String)
    (sp : scryptParams) : EncryptedOCRPrivateKey :=
  let marshalledPrivK := MarshalJSON pk
  let cryptoJSON := encryptDataV3 marshalledPrivK (adulteratedPassword auth) sp.N sp.P
  ⟨pk.ID, onChainAddress pk.onChainSigning,
    ed25519PublicKey pk.offChainSigning, cryptoJSON⟩

/-- Embeds `Encrypt`: `encrypt` with the production scrypt params. -/
def OCRPrivateKey.Encrypt (pk : OCRPrivateKey) (auth : String) :
    EncryptedOCRPrivateKey :=
  pk.encrypt auth defaultScryptParams

/-- Embeds `EncryptedOCRPrivateKey.Decrypt`: authenticate and decrypt
the container, unmarshal the plaintext, and re-attach the stored ID.
Error messages mirror the `errors.Wrapf` wrapping in the source. -/
def EncryptedOCRPrivateKey.Decrypt (encKey : EncryptedOCRPrivateKey)
    (auth : String) : Except String OCRPrivateKey :=
  match decryptDataV3 encKey.EncryptedPrivKeys (adulteratedPassword auth) with
  | .error e => .error ("could not decrypt OCR key: " ++ e)
  | .ok marshalledPrivK =>
      match UnmarshalJSON marshalledPrivK with
      | none => .error "could not unmarshal OCR key"
      | some pk => .ok { pk with ID := encKey.ID }

/-- Embeds `PublicKeyConfig`: the public component of the exchange
keypair.  On an `X25519` error the source only logs and returns the
zero-filled 32-byte array, whose encoding is the all-zero low-order
point. -/
def OCRPrivateKey.PublicKeyConfig (pk : OCRPrivateKey) : X25519Point :=
  match X25519fn pk.offChainEncryption curve25519Basepoint with
  | .error _ => .lowOrder 0
  | .ok rv => rv

/-- Embeds `ConfigDiffieHelman`: the shared point obtained by
multiplying the peer's point by the `offChainEncryption` scalar. -/
def OCRPrivateKey.ConfigDiffieHelman (pk : OCRPrivateKey) (base : X25519Point) :
    Except String X25519Point :=
  match X25519fn pk.offChainEncryption base with
  | .error e => .error e
  | .ok p => .ok p

/-- The literal text before the address in the `String` rendering. -/
def renderHead : List Char := "OCRPrivateKey\x7bPublicKeyAddressOnChain: ".toList

/-- The literal text between the address and the off-chain key. -/
def renderMid : List Char := ", PublicKeyOffChain: ".toList

/-- Embeds the `String` method ("reduces the risk of accidentally
logging the private key"): a rendering of the two public components
only.  The `%s` renderings of the two public byte-string types live
in repository files not under `src/`; following the spec's
"hex-encoded" display, they are modelled as lowercase hex. -/
def OCRPrivateKey.stringRepr (pk : OCRPrivateKey) : List Char :=
  renderHead ++ hexEncodeChars (onChainAddress pk.onChainSigning) ++
    renderMid ++ hexEncodeChars (ed25519PublicKey pk.offChainSigning) ++
    [Char.ofNat 125]

/-- Embeds `GoStringer`, which simply returns `String`. -/
def OCRPrivateKey.GoStringer (pk : OCRPrivateKey) : List Char := pk.stringRepr

/-! ## Helper lemmas about the vault -/

/-- Decrypting what `encrypt` produced, with the same password,
restores every key field; the rebuilt bundle carries the stored ID
and no `Curve`. -/
theorem decrypt_encrypt_ok (pk : OCRPrivateKey) (auth : String) (sp : scryptParams)
    (hed : BytesOK pk.offChainSigning) (hoc : pk.offChainEncryption ≠ []) :
    (pk.encrypt auth sp).Decrypt auth =
      .ok ⟨pk.ID, ⟨none, pk.onChainSigning.X, pk.onChainSigning.Y,
        pk.onChainSigning.D⟩, pk.offChainSigning, pk.offChainEncryption⟩ := by
  simp only [OCRPrivateKey.encrypt, EncryptedOCRPrivateKey.Decrypt, encryptDataV3,
    decryptDataV3]
  rw [if_pos ⟨trivial, trivial⟩]
  simp only [UnmarshalJSON, MarshalJSON]
  rw [parseOcrKeyJSON_ocrKeyJSON (rawOf pk) hed hoc]
  rfl

/-- Concrete 64-byte ed25519 private key used to instantiate claims. -/
def wEd : List Nat := List.range 64

/-- Concrete 32-byte exchange scalar used to instantiate claims. -/
def wEx : List Nat := List.range 32

/-! ## The claims -/

/-- C1 — Vault round trip: for every key bundle produced by
`NewOCRPrivateKey` (entropy explicit, with the well-formedness the
generator guarantees: a 64-byte ed25519 key and a 32-byte exchange
scalar) and every password, `Decrypt(Encrypt(B, P), P)` succeeds and
returns a bundle with the same ID, the same on-chain private scalar
and public point coordinates, the same ed25519 private key bytes, and
the same curve25519 exchange scalar. -/
theorem claim1_vault_round_trip (d : Nat) (ed ex : List Nat) (P : String)
    (hed : BytesOK ed) (_hedl : ed.length = 64) (_hexb : BytesOK ex)
    (hexl : ex.length = 32) :
    ∃ pk' : OCRPrivateKey,
      ((NewOCRPrivateKey d ed ex).Encrypt P).Decrypt P = .ok pk' ∧
      pk'.ID = (NewOCRPrivateKey d ed ex).ID ∧
      pk'.onChainSigning.D = (NewOCRPrivateKey d ed ex).onChainSigning.D ∧
      pk'.onChainSigning.X = (NewOCRPrivateKey d ed ex).onChainSigning.X ∧
      pk'.onChainSigning.Y = (NewOCRPrivateKey d ed ex).onChainSigning.Y ∧
      pk'.offChainSigning = (NewOCRPrivateKey d ed ex).offChainSigning ∧
      pk'.offChainEncryption = (NewOCRPrivateKey d ed ex).offChainEncryption := by
  have hoc : (NewOCRPrivateKey d ed ex).offChainEncryption ≠ [] := by
    show ex ≠ []
    intro h
    rw [h] at hexl
    simp at hexl
  have hed' : BytesOK (NewOCRPrivateKey d ed ex).offChainSigning := hed
  exact ⟨_, decrypt_encrypt_ok _ P defaultScryptParams hed' hoc,
    rfl, rfl, rfl, rfl, rfl, rfl⟩

/-- Witness for C1 at a concrete bundle and password. -/
theorem claim1_vault_round_trip_witness :
    ∃ pk' : OCRPrivateKey,
      ((NewOCRPrivateKey 1 wEd wEx).Encrypt "correct-password").Decrypt
          "correct-password" = .ok pk' ∧
      pk'.ID = (NewOCRPrivateKey 1 wEd wEx).ID ∧
      pk'.onChainSigning.D = (NewOCRPrivateKey 1 wEd wEx).onChainSigning.D ∧
      pk'.onChainSigning.X = (NewOCRPrivateKey 1 wEd wEx).onChainSigning.X ∧
      pk'.onChainSigning.Y = (NewOCRPrivateKey 1 wEd wEx).onChainSigning.Y ∧
      pk'.offChainSigning = (NewOCRPrivateKey 1 wEd wEx).offChainSigning ∧
      pk'.offChainEncryption = (NewOCRPrivateKey 1 wEd wEx).offChainEncryption :=
  claim1_vault_round_trip 1 wEd wEx "correct-password"
    (by decide) (by decide) (by decide) (by decide)

/-- C2 — Wrong password: decrypting an `encrypt` output with a
different password fails, and the error value is the single
authentication-failure error, the same one any corrupted or tampered
container (invalid MAC or mismatched derivation password) produces —
the return value does not distinguish the two cases. -/
theorem claim2_wrong_password (pk : OCRPrivateKey) (p1 p2 : String)
    (sp : scryptParams) (h : p1 ≠ p2) :
    (pk.encrypt p1 sp).Decrypt p2 =
      .error ("could not decrypt OCR key: " ++
        "could not decrypt key with given password") ∧
    ∀ (enc : EncryptedOCRPrivateKey) (p : String),
      ¬(enc.EncryptedPrivKeys.macValid = true ∧
        enc.EncryptedPrivKeys.kdfPassword = adulteratedPassword p) →
      enc.Decrypt p =
        .error ("could not decrypt OCR key: " ++
          "could not decrypt key with given password") := by
  constructor
  · have hne : ¬(adulteratedPassword p1 = adulteratedPassword p2) := by
      intro he
      apply h
      have hdata := congrArg String.data he
      simp only [adulteratedPassword, String.data_append] at hdata
      exact String.ext (List.append_cancel_left hdata)
    simp only [OCRPrivateKey.encrypt, EncryptedOCRPrivateKey.Decrypt,
      encryptDataV3, decryptDataV3]
    rw [if_neg (fun hc => hne hc.2)]
  · intro enc p hno
    simp only [EncryptedOCRPrivateKey.Decrypt, decryptDataV3]
    rw [if_neg hno]

/-- Witness for C2 at a concrete bundle and password pair. -/
theorem claim2_wrong_password_witness :
    ((NewOCRPrivateKey 1 wEd wEx).encrypt "correct-password"
        defaultScryptParams).Decrypt "wrong-password" =
      .error ("could not decrypt OCR key: " ++
        "could not decrypt key with given password") ∧
    ∀ (enc : EncryptedOCRPrivateKey) (p : String),
      ¬(enc.EncryptedPrivKeys.macValid = true ∧
        enc.EncryptedPrivKeys.kdfPassword = adulteratedPassword p) →
      enc.Decrypt p =
        .error ("could not decrypt OCR key: " ++
          "could not decrypt key with given password") :=
  claim2_wrong_password (NewOCRPrivateKey 1 wEd wEx) "correct-password"
    "wrong-password" defaultScryptParams (by decide)

/-- C8 — Identity threading: `encrypt` copies the bundle's ID, derived
on-chain address and off-chain public key unchanged into the
encrypted bundle, and `Decrypt` attaches exactly the stored ID to its
output — for any container and accepted password, without recomputing
it from the decrypted material. -/
theorem claim8_identity_threading (pk : OCRPrivateKey) (auth : String)
    (sp : scryptParams) :
    (pk.encrypt auth sp).ID = pk.ID ∧
    (pk.encrypt auth sp).OnChainSigningAddress = onChainAddress pk.onChainSigning ∧
    (pk.encrypt auth sp).OffChainPublicKey = ed25519PublicKey pk.offChainSigning ∧
    ∀ (enc : EncryptedOCRPrivateKey) (p : String) (pk' : OCRPrivateKey),
      enc.Decrypt p = .ok pk' → pk'.ID = enc.ID := by
  refine ⟨rfl, rfl, rfl, ?_⟩
  intro enc p pk' h
  rcases hD : decryptDataV3 enc.EncryptedPrivKeys (adulteratedPassword p) with e | m
  · simp only [EncryptedOCRPrivateKey.Decrypt, hD] at h
    exact Except.noConfusion h
  · simp only [EncryptedOCRPrivateKey.Decrypt, hD] at h
    rcases hU : UnmarshalJSON m with _ | pk0
    · simp only [hU] at h
      exact Except.noConfusion h
    · simp only [hU, Except.ok.injEq] at h
      subst h
      rfl

/-- C9 — Password adulteration: both directions of the vault derive
the symmetric key from `"ocrkey" ++ password`, never from the raw
password; decryption succeeds only on a container keyed under the
same adulterated password, and a container keyed under the raw
password string is never accepted with that password. -/
theorem claim9_password_adulteration :
    (∀ s, adulteratedPassword s = "ocrkey" ++ s) ∧
    (∀ (pk : OCRPrivateKey) (auth : String) (sp : scryptParams),
      (pk.encrypt auth sp).EncryptedPrivKeys.kdfPassword = "ocrkey" ++ auth) ∧
    (∀ (enc : EncryptedOCRPrivateKey) (p : String) (pk' : OCRPrivateKey),
      enc.Decrypt p = .ok pk' →
      enc.EncryptedPrivKeys.kdfPassword = "ocrkey" ++ p) ∧
    (∀ (enc : EncryptedOCRPrivateKey) (p : String),
      enc.EncryptedPrivKeys.kdfPassword = p →
      ∀ pk', enc.Decrypt p ≠ .ok pk') := by
  have hkey : ∀ (enc : EncryptedOCRPrivateKey) (p : String) (pk' : OCRPrivateKey),
      enc.Decrypt p = .ok pk' →
      enc.EncryptedPrivKeys.kdfPassword = "ocrkey" ++ p := by
    intro enc p pk' h
    simp only [EncryptedOCRPrivateKey.Decrypt, decryptDataV3] at h
    by_cases hc : enc.EncryptedPrivKeys.macValid = true ∧
        enc.EncryptedPrivKeys.kdfPassword = adulteratedPassword p
    · exact hc.2
    · rw [if_neg hc] at h
      exact absurd h (by simp)
  refine ⟨fun s => rfl, fun pk auth sp => rfl, hkey, ?_⟩
  intro enc p hraw pk' hok
  have := hkey enc p pk' hok
  rw [hraw] at this
  have hlen := congrArg String.length this
  rw [String.length_append] at hlen
  simp only [show ("ocrkey" : String).length = 6 from rfl] at hlen
  omega

/-- C10 — Curve-field asymmetry: a generated bundle's on-chain public
key carries the secp256k1 curve, while a bundle rebuilt through
`UnmarshalJSON` (hence any decrypted bundle) has no curve set; so a
decrypted bundle is never structurally identical to the generated one
even when every scalar and byte field agrees. -/
theorem claim10_curve_field_asymmetry :
    (∀ (d : Nat) (ed ex : List Nat),
      (NewOCRPrivateKey d ed ex).onChainSigning.curve =
        some CurveName.secp256k1) ∧
    (∀ (b : List Nat) (pk' : OCRPrivateKey),
      UnmarshalJSON b = some pk' → pk'.onChainSigning.curve = none) ∧
    (∀ (enc : EncryptedOCRPrivateKey) (p : String) (pk' : OCRPrivateKey),
      enc.Decrypt p = .ok pk' → pk'.onChainSigning.curve = none) ∧
    (∀ (d : Nat) (ed ex : List Nat) (p : String) (pk' : OCRPrivateKey),
      ((NewOCRPrivateKey d ed ex).Encrypt p).Decrypt p = .ok pk' →
      pk' ≠ NewOCRPrivateKey d ed ex) := by
  have hunm : ∀ (b : List Nat) (pk' : OCRPrivateKey),
      UnmarshalJSON b = some pk' → pk'.onChainSigning.curve = none := by
    intro b pk' h
    simp only [UnmarshalJSON] at h
    split at h
    · cases h
    · simp only [Option.some.injEq] at h
      subst h
      rfl
  have hdec : ∀ (enc : EncryptedOCRPrivateKey) (p : String) (pk' : OCRPrivateKey),
      enc.Decrypt p = .ok pk' → pk'.onChainSigning.curve = none := by
    intro enc p pk' h
    rcases hD : decryptDataV3 enc.EncryptedPrivKeys (adulteratedPassword p) with e | m
    · simp only [EncryptedOCRPrivateKey.Decrypt, hD] at h
      exact Except.noConfusion h
    · simp only [EncryptedOCRPrivateKey.Decrypt, hD] at h
      rcases hU : UnmarshalJSON m with _ | pk0
      · simp only [hU] at h
        exact Except.noConfusion h
      · simp only [hU, Except.ok.injEq] at h
        subst h
        exact hunm m pk0 hU
  refine ⟨fun d ed ex => rfl, hunm, hdec, ?_⟩
  intro d ed ex p pk' h heq
  have h1 := hdec _ _ _ h
  rw [heq] at h1
  simp only [show (NewOCRPrivateKey d ed ex).onChainSigning.curve =
    some CurveName.secp256k1 from rfl] at h1
  exact Option.noConfusion h1

/-- C3 — Identity derivation: the bundle's ID is the lowercase hex
encoding of the SHA-256 digest of the canonical serialization of the
three private components alone (64 hex characters), and equal private
key material yields equal ID. -/
theorem claim3_identity_derivation (d : Nat) (ed ex : List Nat) :
    (NewOCRPrivateKey d ed ex).ID =
      hexEncodeToString
        (sha256Sum256 (ocrKeyJSON (rawOf (NewOCRPrivateKey d ed ex)))) ∧
    (NewOCRPrivateKey d ed ex).ID.length = 64 ∧
    (∀ c ∈ (NewOCRPrivateKey d ed ex).ID.data, isLowerHexChar c = true) ∧
    (∀ (d2 : Nat) (ed2 ex2 : List Nat),
      (NewOCRPrivateKey d ed ex).onChainSigning.D =
        (NewOCRPrivateKey d2 ed2 ex2).onChainSigning.D →
      (NewOCRPrivateKey d ed ex).offChainSigning =
        (NewOCRPrivateKey d2 ed2 ex2).offChainSigning →
      (NewOCRPrivateKey d ed ex).offChainEncryption =
        (NewOCRPrivateKey d2 ed2 ex2).offChainEncryption →
      (NewOCRPrivateKey d ed ex).ID = (NewOCRPrivateKey d2 ed2 ex2).ID) := by
  refine ⟨rfl, ?_, ?_, ?_⟩
  · show (hexEncodeToString
      (sha256Sum256 (ocrKeyJSON (rawOf (NewOCRPrivateKey d ed ex))))).length = 64
    rw [hexEncodeToString, String.length_mk, hexEncodeChars_length,
      sha256Sum256_length]
  · intro c hc
    exact hexEncodeChars_all_hex _ (sha256Sum256_bytes _) c hc
  · intro d2 ed2 ex2 h1 h2 h3
    have h1' : d = d2 := h1
    have h2' : ed = ed2 := h2
    have h3' : ex = ex2 := h3
    subst h1'
    subst h2'
    subst h3'
    rfl

/-- C4, counterexample — the claim "the on-chain private scalar is
drawn from `[1, curveOrder-1]`, in particular never 0" is false of the
code: `cryptorand.Int(reader, N)` draws uniformly from `[0, N-1]`, so
the entropy value 0 produces a bundle whose scalar is 0. -/
theorem claim4_counterexample :
    ¬(∀ (d : Nat) (ed ex : List Nat), d < secpN →
        1 ≤ (NewOCRPrivateKey d ed ex).onChainSigning.D) := by
  intro hcl
  have h0 : (1 : Nat) ≤ 0 := hcl 0 wEd wEx (by decide)
  omega

/-- C4, amended — Key generation range: the on-chain private scalar
equals the value drawn by `cryptorand.Int(reader, N)`, a uniform draw
from `[0, curveOrder-1]` (so 0 is possible, with probability 1/N),
and the on-chain public point is the scalar multiplication of the
curve base point by that scalar. -/
theorem claim4_keygen_range (d : Nat) (ed ex : List Nat) (h : d < secpN) :
    (NewOCRPrivateKey d ed ex).onChainSigning.D = d ∧
    (NewOCRPrivateKey d ed ex).onChainSigning.D < secpN ∧
    (NewOCRPrivateKey d ed ex).onChainSigning.X = (scalarBaseMult d).1 ∧
    (NewOCRPrivateKey d ed ex).onChainSigning.Y = (scalarBaseMult d).2 :=
  ⟨rfl, h, rfl, rfl⟩

/-- Witness for the amended C4 at a concrete bundle. -/
theorem claim4_keygen_range_witness :
    (NewOCRPrivateKey 1 wEd wEx).onChainSigning.D = 1 ∧
    (NewOCRPrivateKey 1 wEd wEx).onChainSigning.D < secpN ∧
    (NewOCRPrivateKey 1 wEd wEx).onChainSigning.X = (scalarBaseMult 1).1 ∧
    (NewOCRPrivateKey 1 wEd wEx).onChainSigning.Y = (scalarBaseMult 1).2 :=
  claim4_keygen_range 1 wEd wEx (by decide)

/-- C5 — Key-agreement symmetry: for any two generated bundles A and
B, `A.ConfigDiffieHelman(B.PublicKeyConfig())` and
`B.ConfigDiffieHelman(A.PublicKeyConfig())` both succeed and return
the same shared point. -/
theorem claim5_dh_symmetry (dA dB : Nat) (edA edB exA exB : List Nat) :
    ∃ s : X25519Point,
      (NewOCRPrivateKey dA edA exA).ConfigDiffieHelman
        (NewOCRPrivateKey dB edB exB).PublicKeyConfig = .ok s ∧
      (NewOCRPrivateKey dB edB exB).ConfigDiffieHelman
        (NewOCRPrivateKey dA edA exA).PublicKeyConfig = .ok s := by
  refine ⟨X25519Point.scaled
    (Multiset.cons (clampBytes exA) (Multiset.cons (clampBytes exB) 0)), rfl, ?_⟩
  show Except.ok (X25519Point.scaled
      (Multiset.cons (clampBytes exB) (Multiset.cons (clampBytes exA) 0))) = _
  exact congrArg (fun m => Except.ok (X25519Point.scaled m))
    (Multiset.cons_swap _ _ _)

/-- C6 — Degenerate peer point: applying `ConfigDiffieHelman` to any
low-order/degenerate peer point yields the library's
invalid-peer-point error and never a shared secret, in particular
never the all-zero point. -/
theorem claim6_degenerate_peer (pk : OCRPrivateKey) (i : Nat) :
    pk.ConfigDiffieHelman (X25519Point.lowOrder i) =
      .error "bad input point: low order point" ∧
    ∀ s : X25519Point, pk.ConfigDiffieHelman (X25519Point.lowOrder i) ≠ .ok s := by
  refine ⟨rfl, ?_⟩
  intro s h
  rw [show pk.ConfigDiffieHelman (X25519Point.lowOrder i) =
    .error "bad input point: low order point" from rfl] at h
  exact Except.noConfusion h

/-! ## Machinery for the non-disclosure claim: where an all-hex
window can sit inside the rendered string -/

/-- A prefix that avoids a character stays within the part before it. -/
theorem prefix_avoid (c : Char) (s : List Char) :
    ∀ (x y : List Char), c ∉ s → s <+: x ++ c :: y → s <+: x := by
  induction s with
  | nil => intro x y _ _; exact ⟨x, by simp⟩
  | cons a s' ih =>
      intro x y hcs hp
      cases x with
      | nil =>
          rw [List.nil_append, List.cons_prefix_cons] at hp
          exact absurd hp.1.symm (fun he => hcs (he ▸ List.mem_cons_self a s'))
      | cons b x' =>
          rw [List.cons_append, List.cons_prefix_cons] at hp
          have hcs' : c ∉ s' := fun hm => hcs (List.mem_cons_of_mem a hm)
          have := ih x' y hcs' hp.2
          rw [List.cons_prefix_cons]
          exact ⟨hp.1, this⟩

/-- An infix made of hex characters cannot straddle a non-hex
character: it sits wholly on one side of it. -/
theorem allhex_infix_split (s : List Char)
    (hs : ∀ a ∈ s, isLowerHexChar a = true) :
    ∀ (x y : List Char) (c : Char), isLowerHexChar c = false →
    s <:+: x ++ c :: y → s <:+: x ∨ s <:+: y := by
  have hcs : ∀ c : Char, isLowerHexChar c = false → c ∉ s := by
    intro c hc hm
    rw [hs c hm] at hc
    cases hc
  intro x
  induction x with
  | nil =>
      intro y c hc h
      rw [List.nil_append, List.infix_cons_iff] at h
      rcases h with hp | hi
      · cases s with
        | nil => exact Or.inl ⟨[], [], rfl⟩
        | cons a s' =>
            rw [List.cons_prefix_cons] at hp
            exact absurd hp.1.symm
              (fun he => hcs c hc (he ▸ List.mem_cons_self a s'))
      · exact Or.inr hi
  | cons b x' ih =>
      intro y c hc h
      rw [List.cons_append, List.infix_cons_iff] at h
      rcases h with hp | hi
      · have := prefix_avoid c s (b :: x') y (hcs c hc)
          (by rwa [List.cons_append])
        obtain ⟨r, hr⟩ := this
        exact Or.inl ⟨[], r, by simpa using hr⟩
      · rcases ih y c hc hi with h1 | h2
        · exact Or.inl (List.infix_cons_iff.mpr (Or.inr h1))
        · exact Or.inr h2

/-- The rendered string's text before the address. -/
def headInit : List Char := "OCRPrivateKey\x7bPublicKeyAddressOnChain:".toList

/-- The rendered string's text between the address and the public
key, minus its delimiters. -/
def midInit : List Char := " PublicKeyOffChain:".toList

/-- Any window of hex characters inside the rendered string lies
wholly inside one of: the fixed text before the address, the address
hex, the fixed middle text, or the off-chain public key hex. -/
theorem render_allhex_window (A B s : List Char)
    (hs : ∀ a ∈ s, isLowerHexChar a = true)
    (h : s <:+: headInit ++ ' ' ::
      (A ++ ',' :: (midInit ++ ' ' :: (B ++ Char.ofNat 125 :: [])))) :
    s <:+: headInit ∨ s <:+: A ∨ s <:+: midInit ∨ s <:+: B := by
  rcases allhex_infix_split s hs _ _ ' ' (by decide) h with h1 | h1
  · exact Or.inl h1
  rcases allhex_infix_split s hs _ _ ',' (by decide) h1 with h2 | h2
  · exact Or.inr (Or.inl h2)
  rcases allhex_infix_split s hs _ _ ' ' (by decide) h2 with h3 | h3
  · exact Or.inr (Or.inr (Or.inl h3))
  rcases allhex_infix_split s hs _ _ (Char.ofNat 125) (by decide) h3 with h4 | h4
  · exact Or.inr (Or.inr (Or.inr h4))
  · have hlen := h4.length_le
    have hnil : s = [] := by
      cases s with
      | nil => rfl
      | cons a t => simp at hlen
    subst hnil
    exact Or.inr (Or.inr (Or.inr ⟨[], B, by simp⟩))

theorem natToBytesBE_length (w n : Nat) : (natToBytesBE w n).length = w := by
  simp [natToBytesBE]

theorem natToBytesBE_bytes (w n : Nat) : BytesOK (natToBytesBE w n) := by
  intro b hb
  simp only [natToBytesBE, List.mem_map] at hb
  obtain ⟨i, _, rfl⟩ := hb
  exact Nat.mod_lt _ (by omega)

theorem onChainAddress_length (k : onChainPrivateKey) :
    (onChainAddress k).length = 20 := by
  simp [onChainAddress, List.length_drop, sha256Sum256_length]

theorem onChainAddress_bytes (k : onChainPrivateKey) :
    BytesOK (onChainAddress k) := by
  intro b hb
  exact sha256Sum256_bytes _ b (List.drop_subset _ _ hb)

/-- The rendered string, re-associated around its non-hex delimiter
characters. -/
theorem stringRepr_shape (pk : OCRPrivateKey) :
    pk.stringRepr = headInit ++ ' ' ::
      (hexEncodeChars (onChainAddress pk.onChainSigning) ++ ',' ::
        (midInit ++ ' ' ::
          (hexEncodeChars (ed25519PublicKey pk.offChainSigning) ++
            Char.ofNat 125 :: []))) := by
  have h1 : renderHead = headInit ++ [' '] := by decide
  have h2 : renderMid = ',' :: (midInit ++ [' ']) := by decide
  simp [OCRPrivateKey.stringRepr, h1, h2]

/-- C7, counterexample — the literal "the output never contains any
byte or hex encoding of … the exchange private scalar, for every
bundle" fails: entropy can draw an exchange scalar whose 32 bytes
coincide with the off-chain public key half of the ed25519 key, and
then the rendering (which shows the public key hex) contains the
exchange private scalar's hex encoding. -/
theorem claim7_counterexample :
    hexEncodeChars ((NewOCRPrivateKey 1 wEd (List.drop 32 wEd)).offChainEncryption)
      <:+: (NewOCRPrivateKey 1 wEd (List.drop 32 wEd)).stringRepr := by
  rw [stringRepr_shape (NewOCRPrivateKey 1 wEd (List.drop 32 wEd))]
  refine ⟨headInit ++ ' ' ::
    (hexEncodeChars (onChainAddress
      (NewOCRPrivateKey 1 wEd (List.drop 32 wEd)).onChainSigning) ++ ',' ::
      (midInit ++ [' '])), [Char.ofNat 125], ?_⟩
  simp
  rfl

/-- C7 — Non-disclosure of private material: the `String`/`GoStringer`
rendering is a function only of the two public components, and the
only 64-character hex run inside it is the off-chain public key hex —
so the fixed-width hex encoding of the on-chain private scalar or of
the exchange private scalar occurs in the output only in the
measure-zero event that it coincides with the public key hex, and the
128-character hex encoding of the ed25519 private key never occurs. -/
theorem claim7_non_disclosure (pk : OCRPrivateKey)
    (hedl : pk.offChainSigning.length = 64)
    (hedb : BytesOK pk.offChainSigning)
    (hexl : pk.offChainEncryption.length = 32)
    (hexb : BytesOK pk.offChainEncryption) :
    (∀ pk2 : OCRPrivateKey,
      onChainAddress pk2.onChainSigning = onChainAddress pk.onChainSigning →
      ed25519PublicKey pk2.offChainSigning = ed25519PublicKey pk.offChainSigning →
      pk2.stringRepr = pk.stringRepr) ∧
    pk.GoStringer = pk.stringRepr ∧
    (∀ s : List Char, (∀ a ∈ s, isLowerHexChar a = true) → s.length = 64 →
      s <:+: pk.stringRepr →
      s = hexEncodeChars (ed25519PublicKey pk.offChainSigning)) ∧
    (hexEncodeChars (natToBytesBE 32 pk.onChainSigning.D) ≠
        hexEncodeChars (ed25519PublicKey pk.offChainSigning) →
      ¬(hexEncodeChars (natToBytesBE 32 pk.onChainSigning.D) <:+: pk.stringRepr)) ∧
    (hexEncodeChars pk.offChainEncryption ≠
        hexEncodeChars (ed25519PublicKey pk.offChainSigning) →
      ¬(hexEncodeChars pk.offChainEncryption <:+: pk.stringRepr)) ∧
    ¬(hexEncodeChars pk.offChainSigning <:+: pk.stringRepr) := by
  have hpublen : (hexEncodeChars (ed25519PublicKey pk.offChainSigning)).length
      = 64 := by
    rw [hexEncodeChars_length]
    simp [ed25519PublicKey, hedl]
  have haddrlen : (hexEncodeChars (onChainAddress pk.onChainSigning)).length
      = 40 := by
    rw [hexEncodeChars_length, onChainAddress_length]
  have hhead : headInit.length = 38 := by decide
  have hmid : midInit.length = 19 := by decide
  have hwin : ∀ s : List Char, (∀ a ∈ s, isLowerHexChar a = true) →
      s.length = 64 → s <:+: pk.stringRepr →
      s = hexEncodeChars (ed25519PublicKey pk.offChainSigning) := by
    intro s hs hlen hinf
    rw [stringRepr_shape] at hinf
    rcases render_allhex_window _ _ s hs hinf with h | h | h | h
    · have := h.length_le
      rw [hlen, hhead] at this
      omega
    · have := h.length_le
      rw [hlen, haddrlen] at this
      omega
    · have := h.length_le
      rw [hlen, hmid] at this
      omega
    · exact h.eq_of_length (by rw [hlen, hpublen])
  refine ⟨?_, rfl, hwin, ?_, ?_, ?_⟩
  · intro pk2 ha hb
    simp only [OCRPrivateKey.stringRepr, ha, hb]
  · intro hne hinf
    apply hne
    exact hwin _ (hexEncodeChars_all_hex _ (natToBytesBE_bytes 32 _))
      (by rw [hexEncodeChars_length, natToBytesBE_length]) hinf
  · intro hne hinf
    apply hne
    exact hwin _ (hexEncodeChars_all_hex _ hexb)
      (by rw [hexEncodeChars_length, hexl]) hinf
  · intro hinf
    have hedhexlen : (hexEncodeChars pk.offChainSigning).length = 128 := by
      rw [hexEncodeChars_length, hedl]
    rw [stringRepr_shape] at hinf
    rcases render_allhex_window _ _ _ (hexEncodeChars_all_hex _ hedb) hinf with
      h | h | h | h
    · have := h.length_le
      rw [hedhexlen, hhead] at this
      omega
    · have := h.length_le
      rw [hedhexlen, haddrlen] at this
      omega
    · have := h.length_le
      rw [hedhexlen, hmid] at this
      omega
    · have := h.length_le
      rw [hedhexlen, hpublen] at this
      omega

/-- Witness for C7 at a concrete bundle. -/
theorem claim7_non_disclosure_witness :
    (∀ pk2 : OCRPrivateKey,
      onChainAddress pk2.onChainSigning =
        onChainAddress (NewOCRPrivateKey 1 wEd wEx).onChainSigning →
      ed25519PublicKey pk2.offChainSigning =
        ed25519PublicKey (NewOCRPrivateKey 1 wEd wEx).offChainSigning →
      pk2.stringRepr = (NewOCRPrivateKey 1 wEd wEx).stringRepr) ∧
    (NewOCRPrivateKey 1 wEd wEx).GoStringer =
      (NewOCRPrivateKey 1 wEd wEx).stringRepr ∧
    (∀ s : List Char, (∀ a ∈ s, isLowerHexChar a = true) → s.length = 64 →
      s <:+: (NewOCRPrivateKey 1 wEd wEx).stringRepr →
      s = hexEncodeChars
        (ed25519PublicKey (NewOCRPrivateKey 1 wEd wEx).offChainSigning)) ∧
    (hexEncodeChars (natToBytesBE 32 (NewOCRPrivateKey 1 wEd wEx).onChainSigning.D) ≠
        hexEncodeChars
          (ed25519PublicKey (NewOCRPrivateKey 1 wEd wEx).offChainSigning) →
      ¬(hexEncodeChars (natToBytesBE 32 (NewOCRPrivateKey 1 wEd wEx).onChainSigning.D)
        <:+: (NewOCRPrivateKey 1 wEd wEx).stringRepr)) ∧
    (hexEncodeChars (NewOCRPrivateKey 1 wEd wEx).offChainEncryption ≠
        hexEncodeChars
          (ed25519PublicKey (NewOCRPrivateKey 1 wEd wEx).offChainSigning) →
      ¬(hexEncodeChars (NewOCRPrivateKey 1 wEd wEx).offChainEncryption
        <:+: (NewOCRPrivateKey 1 wEd wEx).stringRepr)) ∧
    ¬(hexEncodeChars (NewOCRPrivateKey 1 wEd wEx).offChainSigning
      <:+: (NewOCRPrivateKey 1 wEd wEx).stringRepr) :=
  claim7_non_disclosure (NewOCRPrivateKey 1 wEd wEx)
    (by decide) (by decide) (by decide) (by decide)

end Ocrkey
